import Mathlib

/-!
Formal model of the backtest core of the sentiment-driven portfolio
construction program: the ranked rebalancing simulator
(`sentiment_trading_strategy`), the static hold simulator
(`buy_and_hold_strategy`) and the metrics engine (`calculate_metrics`).

Conventions of the embedding:
* Dates are indexed `0 .. numDates-1`, assets by their original column
  position `0 .. numAssets-1`.
* Floating-point cells are modelled as exact rationals; a NaN (missing)
  cell of the price or signal table is `none`.
* Most of the development uses exact rationals, where Lean's convention
  makes `x / 0 = 0`. That convention is only faithful away from zero
  denominators, so for the regime in which a *present* zero price makes the
  program's float division produce inf or NaN, the ranked simulator is
  additionally modelled with the IEEE-style value type `FV`, whose
  division, addition and multiplication propagate infinities and NaN.
* The Python lists grow by appending at the tail; the fold states below
  keep the most recent entry at the head and the final results reverse
  the accumulators, which yields the same sequences.
-/

namespace Portfolio

/-- Market data consumed by the backtest: a date-indexed price table and an
aligned signal (sentiment) table, as produced by `fetch_stock_data` and
`compute_daily_sentiment`. A missing (NaN) cell is `none`. -/
structure MarketData where
  numDates : ℕ
  numAssets : ℕ
  price : ℕ → ℕ → Option ℚ
  signal : ℕ → ℕ → Option ℚ

/-- Score of asset `a` at day `t` read from the signal table. The default 0
for an absent entry is only ever applied to assets whose score is present. -/
def scoreAt (d : MarketData) (t a : ℕ) : ℚ := (d.signal t a).getD 0

/-- Insert `a` into a list sorted by `key` in descending order, in front of
the first element whose key is not larger. Together with `sortDesc` this
realizes the stable descending sort performed by
`sentiment_today.sort_values(ascending=False)`: pandas reverses the values,
argsorts them ascending, and reverses the resulting indexer again, so equal
keys keep their original relative order. -/
def insertDesc (key : ℕ → ℚ) (a : ℕ) : List ℕ → List ℕ
  | [] => [a]
  | b :: bs => if key b ≤ key a then a :: b :: bs else b :: insertDesc key a bs

/-- Stable descending sort by `key`. -/
def sortDesc (key : ℕ → ℚ) (l : List ℕ) : List ℕ := l.foldr (insertDesc key) []

/-- Assets whose signal score at day `t` is present. -/
def validScored (d : MarketData) (t : ℕ) : List ℕ :=
  (List.range d.numAssets).filter (fun a => (d.signal t a).isSome)

/-- Assets whose signal score at day `t` is missing (NaN). -/
def missingScored (d : MarketData) (t : ℕ) : List ℕ :=
  (List.range d.numAssets).filter (fun a => (d.signal t a).isNone)

/-- Model of `sentiment_today.sort_values(ascending=False)` on the asset
index: the assets with a present score, sorted by score descending with ties
kept in original column order, followed by the NaN-scored assets (pandas
`na_position='last'`) in original column order. -/
def rankedAssets (d : MarketData) (t : ℕ) : List ℕ :=
  sortDesc (scoreAt d t) (validScored d t) ++ missingScored d t

/-- The `top_stocks` of the step from day `t`: the first `k` entries of the
ranking (`.head(TOP_N).index`). -/
def topStocks (d : MarketData) (k t : ℕ) : List ℕ := (rankedAssets d t).take k

/-- The `valid_stocks` of the step from day `t`: top-ranked stocks whose
day-`t` price is present. -/
def validStocks (d : MarketData) (k t : ℕ) : List ℕ :=
  (topStocks d k t).filter (fun a => (d.price t a).isSome)

/-- One stock's addend in the `portfolio_return` accumulation of the step
from day `t`: a stock whose day-`t+1` price is missing is skipped by the
loop's `continue`, i.e. it contributes 0, while the divisor
`k = len(valid_stocks)` still counts it. The day-`t` price of a stock in
`valid_stocks` is present by construction, so the catch-all 0 branch is
only reachable through a missing day-`t+1` price there. The division is
exact rational division (`x / 0 = 0` in Lean), which matches the float
computation only for a nonzero day-`t` price; the float behaviour at a
present zero price — inf or NaN propagating into the value series — is
modelled by `fdivQ` and the `FV`-valued simulator below. -/
def stockAddend (d : MarketData) (t k a : ℕ) : ℚ :=
  match d.price t a, d.price (t + 1) a with
  | some p0, some p1 => ((p1 - p0) / p0) / (k : ℚ)
  | _, _ => 0

/-- The `portfolio_return` accumulation loop over the stocks `l` with the
fixed divisor `k`. -/
def returnAcc (d : MarketData) (t k : ℕ) (l : List ℕ) : ℚ :=
  l.foldl (fun r a => r + stockAddend d t k a) 0

/-- The `portfolio_return` of a step holding the stocks `l`: each held
stock's period return is divided by `len(valid_stocks)`. -/
def portfolioReturn (d : MarketData) (t : ℕ) (l : List ℕ) : ℚ :=
  returnAcc d t l.length l

/-- Accumulators of the sentiment strategy loop, most recent entry first:
`portfolio_value` (starting as `[INITIAL_CAPITAL]` and never empty),
`daily_returns` and `holdings`. -/
structure SimState where
  values : List ℚ
  rets : List ℚ
  holds : List (List ℕ)
  deriving DecidableEq

/-- One iteration of the `sentiment_trading_strategy` loop, the transition
from day `t` to day `t+1`: rank by sentiment, take the top `k`, drop stocks
with a missing day-`t` price; when no stock survives the loop `continue`s,
leaving every accumulator untouched; otherwise the new value
`portfolio_value[-1] * (1 + portfolio_return)` is appended together with the
step's return and holdings. (The `shares` dict computed in the source is
never read afterwards and does not affect the state.) -/
def stratStep (d : MarketData) (k : ℕ) (s : SimState) (t : ℕ) : SimState :=
  let valid := validStocks d k t
  if valid = [] then s
  else
    let curr := s.values.headI
    let r := portfolioReturn d t valid
    ⟨curr * (1 + r) :: s.values, r :: s.rets, valid :: s.holds⟩

/-- Result of `sentiment_trading_strategy`: the `Portfolio_Value` column,
the `Daily_Return` column (`[0] + daily_returns`) and the returned
`holdings` list. -/
structure StratResult where
  values : List ℚ
  rets : List ℚ
  holds : List (List ℕ)
  deriving DecidableEq

/-- The `sentiment_trading_strategy` simulator: a fold of `stratStep` over
`t = 0 .. numDates-2` starting from `[INITIAL_CAPITAL]`. The source reads
the globals `INITIAL_CAPITAL` and `TOP_N`; they enter here as the
parameters `c0` and `k`. -/
def sentiment_trading_strategy (d : MarketData) (c0 : ℚ) (k : ℕ) : StratResult :=
  let s := (List.range (d.numDates - 1)).foldl (stratStep d k) ⟨[c0], [], []⟩
  ⟨s.values.reverse, 0 :: s.rets.reverse, s.holds.reverse⟩

/-- The per-stock weights printed for a non-degenerate step: the equal
allocation `curr / len(valid_stocks)` of the pre-step value `curr`, divided
by `portfolio_value[-1]` as read after the append, i.e. by the post-step
value `curr * (1 + portfolio_return)`. -/
def reportedWeights (d : MarketData) (t : ℕ) (l : List ℕ) (curr : ℚ) : List ℚ :=
  l.map (fun _ => (curr / (l.length : ℚ)) / (curr * (1 + portfolioReturn d t l)))

/-- Share counts bought at day 0 by `buy_and_hold_strategy`:
`(INITIAL_CAPITAL / number of assets) / price at day 0`. A missing day-0
price makes the share count NaN, modelled as `none`. A *present* zero
day-0 price would make the float share count +inf, which the rational
division (yielding 0) does not capture; the non-negativity analysis
therefore assumes positive present prices on the static hold side. -/
def bhShares (d : MarketData) (c0 : ℚ) (a : ℕ) : Option ℚ :=
  match d.price 0 a with
  | some p0 => some ((c0 / (d.numAssets : ℚ)) / p0)
  | none => none

/-- Assets whose price at day `t` is present: the stocks included in the
day-`t` valuation sum of `buy_and_hold_strategy`. -/
def presentAssets (d : MarketData) (t : ℕ) : List ℕ :=
  (List.range d.numAssets).filter (fun a => (d.price t a).isSome)

/-- The `total_value` at day `t`: shares times price summed over the stocks
with a present day-`t` price. A NaN share count inside the sum poisons the
whole sum, modelled as `none`. -/
def totalValue (d : MarketData) (c0 : ℚ) (t : ℕ) : Option ℚ :=
  if (presentAssets d t).any (fun a => (bhShares d c0 a).isNone) then none
  else some (((presentAssets d t).map
    (fun a => (bhShares d c0 a).getD 0 * (d.price t a).getD 0)).sum)

/-- One day of the `buy_and_hold_strategy` loop (most recent value first):
append `total_value` when it is a number greater than 0, otherwise the
previous value (or the initial capital at `t = 0`). A NaN total fails the
`total_value > 0` comparison, so it also takes the fallback branch. -/
def bhStep (d : MarketData) (c0 : ℚ) (s : List ℚ) (t : ℕ) : List ℚ :=
  (match totalValue d c0 t with
   | some v => if 0 < v then v else (if 0 < t then s.headI else c0)
   | none => if 0 < t then s.headI else c0) :: s

/-- The `Portfolio_Value` column of `buy_and_hold_strategy`. -/
def buy_and_hold_values (d : MarketData) (c0 : ℚ) : List ℚ :=
  ((List.range d.numDates).foldl (bhStep d c0) []).reverse

/-- The `Daily_Return` column of `buy_and_hold_strategy`: 0 at day 0, then
`(value_t - value_{t-1}) / value_{t-1}`. -/
def buy_and_hold_rets (d : MarketData) (c0 : ℚ) : List ℚ :=
  match buy_and_hold_values d c0 with
  | [] => []
  | v :: vs => 0 :: List.zipWith (fun prev curr => (curr - prev) / prev) (v :: vs) vs

/-- Arithmetic mean of a series (pandas `.mean()`). -/
def seriesMean (xs : List ℚ) : ℚ := xs.sum / (xs.length : ℚ)

/-- Sample variance with `ddof = 1`, the square of pandas `.std()`;
meaningful for series of length at least 2, the regime in which `.std()`
is a number rather than NaN. -/
def sampleVar (xs : List ℚ) : ℚ :=
  (xs.map (fun x => (x - seriesMean xs) ^ 2)).sum / ((xs.length : ℚ) - 1)

/-- Model of the Sharpe ratio lines of `calculate_metrics`:
`excess_returns = daily_returns - risk_free_rate` and
`sharpe_ratio = mean/std * sqrt(252) if std != 0 else 0`.
A series shorter than 2 has `std() = NaN`, which passes the `!= 0` test and
propagates to a NaN ratio, modelled as `none`; otherwise
`std = sqrt(sample variance)` is nonzero exactly when the variance is. -/
noncomputable def sharpe_ratio (rets : List ℚ) (rf : ℚ) : Option ℝ :=
  let excess := rets.map (fun r => r - rf)
  if rets.length < 2 then none
  else if sampleVar excess = 0 then some 0
  else some (((seriesMean excess : ℚ) : ℝ) / Real.sqrt ((sampleVar excess : ℚ) : ℝ)
    * Real.sqrt 252)

/-- Running-maximum continuation: `cummaxAux m vs` is the tail of the
cumulative maximum where `m` is the largest value seen so far. -/
def cummaxAux (m : ℚ) : List ℚ → List ℚ
  | [] => []
  | v :: vs => max m v :: cummaxAux (max m v) vs

/-- The `rolling_max = Portfolio_Value.cummax()` series. -/
def cummax : List ℚ → List ℚ
  | [] => []
  | v :: vs => v :: cummaxAux v vs

/-- The `drawdowns = (Portfolio_Value - rolling_max) / rolling_max` series,
elementwise. -/
def drawdowns (vs : List ℚ) : List ℚ :=
  List.zipWith (fun v m => (v - m) / m) vs (cummax vs)

/-- Minimum of a series (pandas `.min()`; the series is nonempty whenever
the program calls this, the `[]` case is a junk default). -/
def seriesMin : List ℚ → ℚ
  | [] => 0
  | v :: vs => vs.foldl min v

/-- The `max_drawdown = drawdowns.min()` of `calculate_metrics`. -/
def max_drawdown (vs : List ℚ) : ℚ := seriesMin (drawdowns vs)

/-! IEEE-style value model. The program computes in float64, so a present
zero price is not excluded by the missing-data filters (`pd.isna(0.0)` is
false) and `(price_t1 - price_t) / price_t` at `price_t = 0.0` yields +inf,
-inf or NaN, which then propagates through the value update. `FV` models a
float as an exact rational, a signed infinity or NaN (rounding, the usual
rational idealization, is ignored; overflow does not occur in this
analysis). -/

/-- A float64 value: finite (exact rational), +inf, -inf or NaN. -/
inductive FV where
  | fin : ℚ → FV
  | pinf : FV
  | ninf : FV
  | nan : FV
  deriving DecidableEq

instance : Inhabited FV := ⟨FV.fin 0⟩

/-- Float division of two finite values (IEEE: the denominators produced by
the price table are +0.0, so `x / 0.0` is +inf for positive x, -inf for
negative x, and `0.0 / 0.0` is NaN). -/
def fdivQ (x y : ℚ) : FV :=
  if y ≠ 0 then .fin (x / y)
  else if x = 0 then .nan
  else if 0 < x then .pinf
  else .ninf

/-- Float addition: NaN propagates; inf plus a finite value keeps its sign;
opposite infinities give NaN. -/
def fadd : FV → FV → FV
  | .nan, _ => .nan
  | .fin _, .nan => .nan
  | .pinf, .nan => .nan
  | .ninf, .nan => .nan
  | .fin a, .fin b => .fin (a + b)
  | .fin _, .pinf => .pinf
  | .fin _, .ninf => .ninf
  | .pinf, .fin _ => .pinf
  | .ninf, .fin _ => .ninf
  | .pinf, .pinf => .pinf
  | .ninf, .ninf => .ninf
  | .pinf, .ninf => .nan
  | .ninf, .pinf => .nan

/-- Float multiplication: NaN propagates; inf times zero is NaN; otherwise
signs multiply. -/
def fmul : FV → FV → FV
  | .nan, _ => .nan
  | .fin _, .nan => .nan
  | .pinf, .nan => .nan
  | .ninf, .nan => .nan
  | .fin a, .fin b => .fin (a * b)
  | .fin a, .pinf => if a = 0 then .nan else if 0 < a then .pinf else .ninf
  | .fin a, .ninf => if a = 0 then .nan else if 0 < a then .ninf else .pinf
  | .pinf, .fin b => if b = 0 then .nan else if 0 < b then .pinf else .ninf
  | .ninf, .fin b => if b = 0 then .nan else if 0 < b then .ninf else .pinf
  | .pinf, .pinf => .pinf
  | .pinf, .ninf => .ninf
  | .ninf, .pinf => .ninf
  | .ninf, .ninf => .pinf

/-- Division of a float value by the positive stock count
`len(valid_stocks)`: finite values divide exactly, infinities keep their
sign, NaN propagates. -/
def fdivN (v : FV) (k : ℕ) : FV :=
  match v with
  | .fin a => .fin (a / (k : ℚ))
  | .pinf => .pinf
  | .ninf => .ninf
  | .nan => .nan

/-- Non-negativity of an emitted float value: a finite value is
non-negative when its rational is, +inf compares non-negative, while -inf
and NaN are not non-negative (in float64, `nan >= 0` is false). -/
def FV.nonneg : FV → Prop
  | .fin q => 0 ≤ q
  | .pinf => True
  | .ninf => False
  | .nan => False

/-- The `portfolio_return` accumulation loop of the ranked simulator in
float semantics: stocks with a missing day-`t+1` price are skipped
(`continue`), the rest add their period return — computed by float
division, so a present zero day-`t` price produces inf or NaN — divided by
the fixed stock count `k`. -/
def returnAccF (d : MarketData) (t k : ℕ) (l : List ℕ) : FV :=
  l.foldl (fun r a =>
    match d.price t a, d.price (t + 1) a with
    | some p0, some p1 => fadd r (fdivN (fdivQ (p1 - p0) p0) k)
    | _, _ => r) (.fin 0)

/-- The step's `portfolio_return` in float semantics. -/
def portfolioReturnF (d : MarketData) (t : ℕ) (l : List ℕ) : FV :=
  returnAccF d t l.length l

/-- Accumulators of the sentiment strategy loop in float semantics, most
recent entry first. -/
structure SimStateF where
  values : List FV
  rets : List FV
  holds : List (List ℕ)
  deriving DecidableEq

/-- One iteration of the `sentiment_trading_strategy` loop in float
semantics: identical control flow to `stratStep`, with the value update
`portfolio_value[-1] * (1 + portfolio_return)` carried out by float
multiplication and addition, so an inf or NaN step return propagates into
the appended value. -/
def stratStepF (d : MarketData) (k : ℕ) (s : SimStateF) (t : ℕ) : SimStateF :=
  let valid := validStocks d k t
  if valid = [] then s
  else
    let curr := s.values.headI
    let r := portfolioReturnF d t valid
    ⟨fmul curr (fadd (.fin 1) r) :: s.values, r :: s.rets, valid :: s.holds⟩

/-- Result of `sentiment_trading_strategy` in float semantics. -/
structure StratResultF where
  values : List FV
  rets : List FV
  holds : List (List ℕ)
  deriving DecidableEq

/-- The `sentiment_trading_strategy` simulator in float semantics: the same
fold as `sentiment_trading_strategy`, over `FV` values. On inputs whose
present prices are all nonzero it coincides with the exact-rational
simulator (proved below); at a present zero price it reproduces the float
inf/NaN propagation the rational model cannot express. -/
def sentiment_trading_strategyF (d : MarketData) (c0 : ℚ) (k : ℕ) :
    StratResultF :=
  let s := (List.range (d.numDates - 1)).foldl (stratStepF d k) ⟨[.fin c0], [], []⟩
  ⟨s.values.reverse, .fin 0 :: s.rets.reverse, s.holds.reverse⟩

/-! Concrete market-data tables used to instantiate theorems and to exhibit
counterexamples. -/

/-- One asset whose price moves 10 to 11, with a present score. -/
def dEx1 : MarketData where
  numDates := 2
  numAssets := 1
  price := fun t a => if a = 0 then (if t = 0 then some 10 else if t = 1 then some 11 else none) else none
  signal := fun t a => if t = 0 ∧ a = 0 then some 1 else none

/-- One asset whose day-0 price is missing: the first transition is
degenerate. -/
def dEx2 : MarketData where
  numDates := 2
  numAssets := 1
  price := fun t a => if t = 1 ∧ a = 0 then some 10 else none
  signal := fun t a => if t = 0 ∧ a = 0 then some 1 else none

/-- One asset whose day-0 price is missing, two dates. -/
def dEx3 : MarketData where
  numDates := 2
  numAssets := 1
  price := fun t a => if t = 1 ∧ a = 0 then some 7 else none
  signal := fun t a => if t = 0 ∧ a = 0 then some 2 else none

/-- Two assets; asset 1 is held but its day-1 price is missing. -/
def dEx4 : MarketData where
  numDates := 2
  numAssets := 2
  price := fun t a =>
    if a = 0 then (if t = 0 then some 10 else if t = 1 then some 11 else none)
    else if a = 1 then (if t = 0 then some 20 else none)
    else none
  signal := fun t a => if t = 0 ∧ a ≤ 1 then some (if a = 0 then 1 else 2) else none

/-- Three assets; assets 0 and 1 have equal scores, asset 2 scores higher. -/
def dEx5 : MarketData where
  numDates := 2
  numAssets := 3
  price := fun t a => if t ≤ 1 ∧ a ≤ 2 then some 10 else none
  signal := fun t a => if t ≤ 1 ∧ a ≤ 2 then some (if a = 2 then 7 else 5) else none

/-- Two assets, only asset 0 has a score; both prices present. -/
def dEx6 : MarketData where
  numDates := 2
  numAssets := 2
  price := fun t a => if t ≤ 1 ∧ a ≤ 1 then some 10 else none
  signal := fun t a => if t ≤ 1 ∧ a = 0 then some 1 else none

/-- Three assets, all with scores at day 0. -/
def dEx6w : MarketData where
  numDates := 2
  numAssets := 3
  price := fun t a => if t ≤ 1 ∧ a ≤ 2 then some 10 else none
  signal := fun t a =>
    if t ≤ 1 ∧ a ≤ 2 then some (if a = 0 then 1 else if a = 1 then 2 else 3)
    else none

/-- One asset with a constant present price. -/
def dEx9 : MarketData where
  numDates := 2
  numAssets := 1
  price := fun _ _ => some 10
  signal := fun _ _ => some 1

/-- One asset whose price is *present but zero* on both days: not negative,
not missing, so it passes every missing-data filter. -/
def dEx9z : MarketData where
  numDates := 2
  numAssets := 1
  price := fun t a => if t ≤ 1 ∧ a = 0 then some 0 else none
  signal := fun t a => if t = 0 ∧ a = 0 then some 1 else none

/-- Two assets; asset 0's day-0 price is missing but its later prices are
present, asset 1 is always present at price 100. -/
def dEx10 : MarketData where
  numDates := 2
  numAssets := 2
  price := fun t a => if a = 0 then (if t = 0 then none else some 10) else if a = 1 then some 100 else none
  signal := fun _ _ => some 1

/-! Helper lemmas. -/

theorem foldl_add_eq (f : ℕ → ℚ) (l : List ℕ) :
    ∀ init : ℚ, l.foldl (fun r a => r + f a) init = init + (l.map f).sum := by
  induction l with
  | nil => simp
  | cons a l ih =>
    intro init
    rw [List.foldl_cons, ih, List.map_cons, List.sum_cons]
    ring

theorem returnAcc_eq_sum (d : MarketData) (t k : ℕ) (l : List ℕ) :
    returnAcc d t k l = (l.map (stockAddend d t k)).sum := by
  rw [returnAcc, foldl_add_eq, zero_add]

theorem sum_map_const (l : List ℕ) (c : ℚ) :
    (l.map (fun _ => c)).sum = (l.length : ℚ) * c := by
  induction l with
  | nil => simp
  | cons a l ih =>
    rw [List.map_cons, List.sum_cons, ih, List.length_cons]
    push_cast
    ring

theorem sum_of_constant (xs : List ℚ) (e : ℚ) (h : ∀ x ∈ xs, x = e) :
    xs.sum = (xs.length : ℚ) * e := by
  induction xs with
  | nil => simp
  | cons x xs ih =>
    rw [List.sum_cons, ih (fun y hy => h y (List.mem_cons_of_mem x hy)),
      h x (List.mem_cons_self x xs), List.length_cons]
    push_cast
    ring

/-! Claim C4: a held asset with a missing day-(t+1) price contributes zero
to the step's return, while the equal-weight divisor still counts it. -/

/-- Claim C4: if a stock `a` in the held list `l` has a missing day-`t+1`
price, the step's portfolio return equals the same accumulation taken over
`l` with `a` removed but with the divisor still `l.length` (counting `a`):
the asset's contribution is exactly zero — neither gain nor loss — and the
computation is total (no error). -/
theorem missing_next_price_zero_contribution (d : MarketData) (t : ℕ)
    (l : List ℕ) (a : ℕ) (ha : a ∈ l) (hmiss : d.price (t + 1) a = none) :
    portfolioReturn d t l = returnAcc d t l.length (l.erase a) := by
  have hperm : l.Perm (a :: l.erase a) := List.perm_cons_erase ha
  have h0 : stockAddend d t l.length a = 0 := by
    unfold stockAddend
    rw [hmiss]
    cases d.price t a <;> rfl
  rw [portfolioReturn, returnAcc_eq_sum, returnAcc_eq_sum,
    (hperm.map (stockAddend d t l.length)).sum_eq, List.map_cons,
    List.sum_cons, h0, zero_add]

/-- Witness for C4 on `dEx4`: asset 1 is held at the step from day 0 and its
day-1 price is missing. -/
theorem missing_next_price_zero_contribution_witness :
    1 ∈ validStocks dEx4 2 0 ∧ dEx4.price (0 + 1) 1 = none ∧
      portfolioReturn dEx4 0 (validStocks dEx4 2 0)
        = returnAcc dEx4 0 (validStocks dEx4 2 0).length
            ((validStocks dEx4 2 0).erase 1) :=
  ⟨by decide, by decide,
    missing_next_price_zero_contribution dEx4 0 (validStocks dEx4 2 0) 1
      (by decide) (by decide)⟩

/-! Claim C2: behaviour of a degenerate transition day. -/

/-- Claim C2 (amended): on a transition day whose valid subset is empty the
loop body is skipped entirely: the simulator state is unchanged, so the
running value carries into the next step, but no value, no return and no
holdings entry is appended for that day, and no crash occurs. -/
theorem degenerate_day_skips_step (d : MarketData) (k : ℕ) (s : SimState)
    (t : ℕ) (h : validStocks d k t = []) : stratStep d k s t = s := by
  unfold stratStep
  simp [h]

/-- Witness for C2 on `dEx2`: the day-0 transition is degenerate and the
state is untouched. -/
theorem degenerate_day_skips_step_witness :
    validStocks dEx2 2 0 = [] ∧
      stratStep dEx2 2 ⟨[100000], [], []⟩ 0 = ⟨[100000], [], []⟩ :=
  ⟨by decide, degenerate_day_skips_step dEx2 2 ⟨[100000], [], []⟩ 0 (by decide)⟩

/-- Counterexample to C2 as stated: on `dEx2` (one asset, two dates, day-0
price missing) the claim predicts a value at day 1 equal to the day-0 value
and a recorded 0 return for the step, but the simulator emits no entry at
all: the value series is `[100000]` with no day-1 entry, and the return
series is only the conventional day-0 zero. -/
theorem degenerate_day_cx :
    (sentiment_trading_strategy dEx2 100000 2).values = [100000] ∧
      (sentiment_trading_strategy dEx2 100000 2).values.length ≠ 2 ∧
      (sentiment_trading_strategy dEx2 100000 2).rets = [0] ∧
      (sentiment_trading_strategy dEx2 100000 2).holds = [] := by decide

/-! Claim C3: output lengths of the ranked rebalancing simulator. -/

theorem stratStep_lengths (d : MarketData) (k : ℕ) (s : SimState) (t : ℕ) :
    (stratStep d k s t).values.length
        = s.values.length + (if (validStocks d k t).isEmpty then 0 else 1) ∧
      (stratStep d k s t).holds.length
        = s.holds.length + (if (validStocks d k t).isEmpty then 0 else 1) := by
  unfold stratStep
  by_cases h : validStocks d k t = []
  · simp [h]
  · simp [h, List.isEmpty_iff]

theorem stratFold_lengths (d : MarketData) (k : ℕ) (ts : List ℕ) :
    ∀ s : SimState,
      (ts.foldl (stratStep d k) s).values.length
          = s.values.length + ts.countP (fun t => !(validStocks d k t).isEmpty) ∧
      (ts.foldl (stratStep d k) s).holds.length
          = s.holds.length + ts.countP (fun t => !(validStocks d k t).isEmpty) := by
  induction ts with
  | nil => simp
  | cons t ts ih =>
    intro s
    rw [List.foldl_cons, List.countP_cons]
    obtain ⟨h1, h2⟩ := ih (stratStep d k s t)
    obtain ⟨g1, g2⟩ := stratStep_lengths d k s t
    by_cases h : (validStocks d k t).isEmpty
    · rw [h1, h2, g1, g2]
      simp [h]
    · rw [h1, h2, g1, g2]
      simp [h]
      omega

/-- Claim C3 (amended): the simulator emits one initial value plus one
value per non-degenerate transition, and one holdings record per
non-degenerate transition; the claimed lengths n+1 and n are obtained
exactly when every transition day has a nonempty valid subset. -/
theorem strat_output_lengths (d : MarketData) (c0 : ℚ) (k : ℕ) :
    (sentiment_trading_strategy d c0 k).values.length
        = 1 + (List.range (d.numDates - 1)).countP
            (fun t => !(validStocks d k t).isEmpty) ∧
      (sentiment_trading_strategy d c0 k).holds.length
        = (List.range (d.numDates - 1)).countP
            (fun t => !(validStocks d k t).isEmpty) := by
  have h := stratFold_lengths d k (List.range (d.numDates - 1)) ⟨[c0], [], []⟩
  unfold sentiment_trading_strategy
  simp only [List.length_reverse]
  constructor
  · rw [h.1]; simp [Nat.add_comm]
  · rw [h.2]; simp

/-- Counterexample to C3 as stated: `dEx3` has two dates (n = 1), but the
day-0 transition is degenerate, so the simulator returns 1 value instead of
n+1 = 2 and 0 holdings records instead of n = 1. -/
theorem strat_output_lengths_cx :
    dEx3.numDates = 2 ∧
      (sentiment_trading_strategy dEx3 100000 2).values.length = 1 ∧
      (sentiment_trading_strategy dEx3 100000 2).values.length ≠ 2 ∧
      (sentiment_trading_strategy dEx3 100000 2).holds.length = 0 ∧
      (sentiment_trading_strategy dEx3 100000 2).holds.length ≠ 1 := by decide

/-! Claim C1: the sum of the reported per-asset weights. -/

/-- Claim C1 (amended): for a non-degenerate step with pre-step value
`curr`, the reported per-asset weights (each `allocation / new_value`) sum
to the pre-step value divided by the post-step value, not to 1; for a
positive pre-step value the sum equals 1 exactly when the step's portfolio
return is 0. -/
theorem reported_weight_sum_amended (d : MarketData) (t : ℕ) (l : List ℕ)
    (curr : ℚ) (hl : l ≠ []) :
    (reportedWeights d t l curr).sum
        = curr / (curr * (1 + portfolioReturn d t l)) ∧
      (0 < curr →
        ((reportedWeights d t l curr).sum = 1 ↔ portfolioReturn d t l = 0)) := by
  have hlen : (l.length : ℚ) ≠ 0 := by
    have := List.length_pos.mpr hl
    positivity
  have hsum : (reportedWeights d t l curr).sum
      = curr / (curr * (1 + portfolioReturn d t l)) := by
    rw [reportedWeights, sum_map_const, div_div]
    rcases eq_or_ne (curr * (1 + portfolioReturn d t l)) 0 with hD | hD
    · simp [hD]
    · field_simp
      ring
  refine ⟨hsum, fun hc => ?_⟩
  rw [hsum]
  rcases eq_or_ne (1 + portfolioReturn d t l) 0 with h1 | h1
  · rw [h1, mul_zero, div_zero]
    constructor
    · intro h; exact absurd h (by norm_num)
    · intro h; rw [h] at h1; norm_num at h1
  · rw [div_eq_one_iff_eq (by exact mul_ne_zero (ne_of_gt hc) h1)]
    constructor
    · intro h
      have : curr * 1 = curr * (1 + portfolioReturn d t l) := by
        rw [mul_one]; exact h
      have := mul_left_cancel₀ (ne_of_gt hc) this
      linarith
    · intro h; rw [h]; ring

/-- Witness for C1's amended statement on `dEx1` with the run's actual
pre-step value 100000. -/
theorem reported_weight_sum_amended_witness :
    validStocks dEx1 2 0 ≠ [] ∧
      (reportedWeights dEx1 0 (validStocks dEx1 2 0) 100000).sum
        = 100000 / (100000 * (1 + portfolioReturn dEx1 0 (validStocks dEx1 2 0))) :=
  ⟨by decide, (reported_weight_sum_amended dEx1 0 (validStocks dEx1 2 0) 100000
    (by decide)).1⟩

/-- Counterexample to C1 as stated: on `dEx1` the day-0 step is
non-degenerate, every held asset has a present day-1 price, yet the
reported weights sum to 10/11 (the price moved 10 to 11), not 1. -/
theorem reported_weight_sum_cx :
    validStocks dEx1 2 0 ≠ [] ∧
      (∀ a ∈ validStocks dEx1 2 0, (dEx1.price 1 a).isSome) ∧
      (reportedWeights dEx1 0 (validStocks dEx1 2 0) 100000).sum = 10 / 11 ∧
      (reportedWeights dEx1 0 (validStocks dEx1 2 0) 100000).sum ≠ 1 := by
  have hv : validStocks dEx1 2 0 = [0] := by decide
  have hr : portfolioReturn dEx1 0 [0] = 1 / 10 := by
    norm_num [portfolioReturn, returnAcc, stockAddend, dEx1]
  refine ⟨by decide, by decide, ?_, ?_⟩ <;>
    rw [hv] <;> norm_num [reportedWeights, hr]

/-! Claim C8: the zero-variance guard of the Sharpe ratio. -/

/-- Claim C8: a constant daily-return series of length at least 2 has zero
sample standard deviation, and the guard returns a Sharpe ratio of exactly
0 — a number, not NaN and not an error. -/
theorem sharpe_zero_variance (rets : List ℚ) (rf c : ℚ)
    (hlen : 2 ≤ rets.length) (hconst : ∀ x ∈ rets, x = c) :
    sharpe_ratio rets rf = some 0 := by
  have hx : ∀ x ∈ rets.map (fun r => r - rf), x = c - rf := by
    intro x hx
    obtain ⟨r, hr, rfl⟩ := List.mem_map.mp hx
    rw [hconst r hr]
  have hlen' : ((rets.map (fun r => r - rf)).length : ℚ) ≠ 0 := by
    rw [List.length_map]
    have : 0 < rets.length := by omega
    positivity
  have hmean : seriesMean (rets.map (fun r => r - rf)) = c - rf := by
    rw [seriesMean, sum_of_constant _ _ hx, mul_comm, mul_div_assoc,
      div_self hlen', mul_one]
  have hvar : sampleVar (rets.map (fun r => r - rf)) = 0 := by
    rw [sampleVar]
    have : ∀ y ∈ (rets.map (fun r => r - rf)).map
        (fun x => (x - seriesMean (rets.map (fun r => r - rf))) ^ 2), y = 0 := by
      intro y hy
      obtain ⟨x, hxm, rfl⟩ := List.mem_map.mp hy
      rw [hmean, hx x hxm]
      ring
    rw [sum_of_constant _ _ this, mul_zero, zero_div]
  have h2 : ¬ rets.length < 2 := by omega
  simp [sharpe_ratio, h2, hvar]

/-- Witness for C8: the constant return series [0, 0, 0] with the program's
default daily risk-free rate 0.06/252 yields a Sharpe ratio of exactly 0. -/
theorem sharpe_zero_variance_witness :
    2 ≤ ([0, 0, 0] : List ℚ).length ∧
      sharpe_ratio [0, 0, 0] (6 / 100 / 252) = some 0 :=
  ⟨by decide, sharpe_zero_variance [0, 0, 0] (6 / 100 / 252) 0 (by decide)
    (by decide)⟩

/-! Claim C7: the drawdown bound. -/

theorem foldl_min_le_init (l : List ℚ) : ∀ a : ℚ, l.foldl min a ≤ a := by
  induction l with
  | nil => intro a; simp
  | cons x l ih =>
    intro a
    rw [List.foldl_cons]
    exact le_trans (ih (min a x)) (min_le_left a x)

theorem foldl_min_eq_init_iff (l : List ℚ) :
    ∀ a : ℚ, l.foldl min a = a ↔ ∀ x ∈ l, a ≤ x := by
  induction l with
  | nil => intro a; simp
  | cons x l ih =>
    intro a
    rw [List.foldl_cons]
    constructor
    · intro h
      have hle2 := foldl_min_le_init l (min a x)
      rw [h] at hle2
      have hax : min a x = a := le_antisymm (min_le_left a x) hle2
      rw [hax] at h
      intro y hy
      rcases List.mem_cons.mp hy with rfl | hy'
      · exact min_eq_left_iff.mp hax
      · exact (ih a).mp h y hy'
    · intro h
      have hax : min a x = a := min_eq_left (h x (List.mem_cons_self x l))
      rw [hax]
      exact (ih a).mpr (fun y hy => h y (List.mem_cons_of_mem _ hy))

theorem zip_dd_nonpos (tail : List ℚ) :
    ∀ m : ℚ, 0 < m → (∀ v ∈ tail, 0 < v) →
      ∀ x ∈ List.zipWith (fun v M => (v - M) / M) tail (cummaxAux m tail),
        x ≤ 0 := by
  induction tail with
  | nil => intro m _ _ x hx; simp [cummaxAux] at hx
  | cons v vs ih =>
    intro m hm hpos x hx
    rw [cummaxAux, List.zipWith_cons_cons] at hx
    have hmax : 0 < max m v := lt_of_lt_of_le hm (le_max_left m v)
    rcases List.mem_cons.mp hx with rfl | hx'
    · exact div_nonpos_iff.mpr
        (Or.inr ⟨sub_nonpos.mpr (le_max_right m v), le_of_lt hmax⟩)
    · exact ih (max m v) hmax
        (fun y hy => hpos y (List.mem_cons_of_mem _ hy)) x hx'

theorem zip_dd_zero_iff (tail : List ℚ) :
    ∀ m : ℚ, 0 < m → (∀ v ∈ tail, 0 < v) →
      ((∀ x ∈ List.zipWith (fun v M => (v - M) / M) tail (cummaxAux m tail),
          x = 0) ↔ List.Chain (· ≤ ·) m tail) := by
  induction tail with
  | nil =>
    intro m _ _
    constructor
    · intro _; exact List.Chain.nil
    · intro _ x hx; simp [cummaxAux] at hx
  | cons v vs ih =>
    intro m hm hpos
    have hv : 0 < v := hpos v (List.mem_cons_self _ _)
    have hmax : 0 < max m v := lt_of_lt_of_le hm (le_max_left m v)
    rw [cummaxAux, List.zipWith_cons_cons, List.chain_cons]
    constructor
    · intro h
      have h0 : (v - max m v) / max m v = 0 := h _ (List.mem_cons_self _ _)
      have hveq : v = max m v := by
        rcases div_eq_zero_iff.mp h0 with h' | h'
        · have := sub_eq_zero.mp h'
          linarith
        · exact absurd h' (ne_of_gt hmax)
      have hrw : max m v = v := hveq.symm
      refine ⟨max_eq_right_iff.mp hrw, ?_⟩
      rw [hrw] at h
      exact (ih v hv (fun y hy => hpos y (List.mem_cons_of_mem _ hy))).mp
        (fun x hx => h x (List.mem_cons_of_mem _ hx))
    · rintro ⟨hmv, hchain⟩
      have hrw : max m v = v := max_eq_right hmv
      rw [hrw]
      intro x hx
      rcases List.mem_cons.mp hx with rfl | hx'
      · rw [sub_self, zero_div]
      · exact (ih v hv
          (fun y hy => hpos y (List.mem_cons_of_mem _ hy))).mpr hchain x hx'

/-- Claim C7: for a nonempty series of positive portfolio values,
`max_drawdown` is at most 0, and it equals 0 exactly when the value series
is monotonically non-decreasing. -/
theorem max_drawdown_nonpos_iff (vs : List ℚ) (hne : vs ≠ [])
    (hpos : ∀ v ∈ vs, 0 < v) :
    max_drawdown vs ≤ 0 ∧ (max_drawdown vs = 0 ↔ vs.Chain' (· ≤ ·)) := by
  obtain ⟨v, tail, rfl⟩ := List.exists_cons_of_ne_nil hne
  have hv : 0 < v := hpos v (List.mem_cons_self _ _)
  have hpt : ∀ y ∈ tail, 0 < y := fun y hy => hpos y (List.mem_cons_of_mem _ hy)
  have hdd : drawdowns (v :: tail)
      = 0 :: List.zipWith (fun x M => (x - M) / M) tail (cummaxAux v tail) := by
    rw [drawdowns, cummax, List.zipWith_cons_cons, sub_self, zero_div]
  have hmin : max_drawdown (v :: tail)
      = (List.zipWith (fun x M => (x - M) / M) tail (cummaxAux v tail)).foldl
          min 0 := by
    rw [max_drawdown, hdd, seriesMin]
  have hchain : List.Chain' (· ≤ ·) (v :: tail) ↔ List.Chain (· ≤ ·) v tail :=
    Iff.rfl
  rw [hmin, hchain]
  refine ⟨foldl_min_le_init _ 0, ?_⟩
  rw [foldl_min_eq_init_iff, ← zip_dd_zero_iff tail v hv hpt]
  have hnonpos := zip_dd_nonpos tail v hv hpt
  constructor
  · intro h x hx
    exact le_antisymm (hnonpos x hx) (h x hx)
  · intro h x hx
    rw [h x hx]

/-- Witness for C7 on the concrete positive series [2, 1]. -/
theorem max_drawdown_nonpos_iff_witness :
    ([2, 1] : List ℚ) ≠ [] ∧ (∀ v ∈ ([2, 1] : List ℚ), 0 < v) ∧
      (max_drawdown [2, 1] ≤ 0 ∧
        (max_drawdown [2, 1] = 0 ↔ List.Chain' (· ≤ ·) ([2, 1] : List ℚ))) :=
  ⟨by decide, by decide, max_drawdown_nonpos_iff [2, 1] (by decide) (by decide)⟩

/-! Claim C9: value non-negativity of both simulators. -/

theorem le_sum_of_forall_le (xs : List ℚ) (e : ℚ) (h : ∀ x ∈ xs, e ≤ x) :
    (xs.length : ℚ) * e ≤ xs.sum := by
  induction xs with
  | nil => simp
  | cons x xs ih =>
    rw [List.sum_cons, List.length_cons]
    have h1 := h x (List.mem_cons_self _ _)
    have h2 := ih (fun y hy => h y (List.mem_cons_of_mem _ hy))
    have h3 : ((xs.length + 1 : ℕ) : ℚ) * e = (xs.length : ℚ) * e + e := by
      push_cast
      ring
    rw [h3]
    linarith

theorem stockAddend_lb (d : MarketData) (t k a : ℕ)
    (hP : ∀ t a p, d.price t a = some p → 0 ≤ p) (hk : 0 < k) :
    -1 / (k : ℚ) ≤ stockAddend d t k a := by
  have hkq : (0 : ℚ) < k := by exact_mod_cast hk
  have hz : -1 / (k : ℚ) ≤ 0 :=
    div_nonpos_iff.mpr (Or.inr ⟨by norm_num, le_of_lt hkq⟩)
  unfold stockAddend
  cases h0 : d.price t a with
  | none => exact hz
  | some p0 =>
    cases h1 : d.price (t + 1) a with
    | none => exact hz
    | some p1 =>
      have hp0 : 0 ≤ p0 := hP t a p0 h0
      have hp1 : 0 ≤ p1 := hP (t + 1) a p1 h1
      rw [div_le_div_iff_of_pos_right hkq]
      rcases eq_or_lt_of_le hp0 with h | h
      · rw [← h]
        norm_num
      · rw [le_div_iff₀ h]
        linarith

theorem portfolioReturn_ge_neg_one (d : MarketData) (t : ℕ) (l : List ℕ)
    (hP : ∀ t a p, d.price t a = some p → 0 ≤ p) (hl : l ≠ []) :
    -1 ≤ portfolioReturn d t l := by
  have hk : 0 < l.length := List.length_pos.mpr hl
  have hkq : (0 : ℚ) < l.length := by exact_mod_cast hk
  rw [portfolioReturn, returnAcc_eq_sum]
  have hb : ∀ x ∈ l.map (stockAddend d t l.length), -1 / (l.length : ℚ) ≤ x := by
    intro x hx
    obtain ⟨a, _, rfl⟩ := List.mem_map.mp hx
    exact stockAddend_lb d t l.length a hP hk
  have hs := le_sum_of_forall_le _ _ hb
  rw [List.length_map] at hs
  have heq : (l.length : ℚ) * (-1 / l.length) = -1 := by
    field_simp
  rw [heq] at hs
  exact hs

theorem stratStep_values_nonneg (d : MarketData) (k : ℕ) (s : SimState) (t : ℕ)
    (hP : ∀ t a p, d.price t a = some p → 0 ≤ p)
    (hs : ∀ v ∈ s.values, 0 ≤ v) :
    ∀ v ∈ (stratStep d k s t).values, 0 ≤ v := by
  unfold stratStep
  by_cases h : validStocks d k t = []
  · simp only [if_pos h]
    exact hs
  · simp only [if_neg h]
    intro v hv
    rcases List.mem_cons.mp hv with rfl | hv'
    · have hcurr : 0 ≤ s.values.headI := by
        cases hval : s.values with
        | nil => exact le_refl 0
        | cons x xs => exact hs x (by rw [hval]; exact List.mem_cons_self _ _)
      have hr := portfolioReturn_ge_neg_one d t (validStocks d k t) hP h
      exact mul_nonneg hcurr (by linarith)
    · exact hs v hv'

theorem stratFold_values_nonneg (d : MarketData) (k : ℕ) (ts : List ℕ)
    (hP : ∀ t a p, d.price t a = some p → 0 ≤ p) :
    ∀ s : SimState, (∀ v ∈ s.values, 0 ≤ v) →
      ∀ v ∈ (ts.foldl (stratStep d k) s).values, 0 ≤ v := by
  induction ts with
  | nil => intro s hs; exact hs
  | cons t ts ih =>
    intro s hs
    rw [List.foldl_cons]
    exact ih _ (stratStep_values_nonneg d k s t hP hs)

theorem bhStep_values_nonneg (d : MarketData) (c0 : ℚ) (hc : 0 ≤ c0)
    (s : List ℚ) (t : ℕ) (hs : ∀ v ∈ s, 0 ≤ v) :
    ∀ v ∈ bhStep d c0 s t, 0 ≤ v := by
  have hhead : 0 ≤ s.headI := by
    cases s with
    | nil => exact le_refl 0
    | cons x xs => exact hs x (List.mem_cons_self _ _)
  have hfb : 0 ≤ (if 0 < t then s.headI else c0) := by
    by_cases ht : 0 < t
    · simpa [ht] using hhead
    · simpa [ht] using hc
  intro v hv
  rw [bhStep] at hv
  rcases List.mem_cons.mp hv with rfl | hv'
  · cases htv : totalValue d c0 t with
    | none => simpa [htv] using hfb
    | some w =>
      by_cases hw : 0 < w
      · simp [htv, hw]
        exact le_of_lt hw
      · simpa [htv, hw] using hfb
  · exact hs v hv'

theorem bhFold_values_nonneg (d : MarketData) (c0 : ℚ) (hc : 0 ≤ c0)
    (ts : List ℕ) :
    ∀ s : List ℚ, (∀ v ∈ s, 0 ≤ v) →
      ∀ v ∈ ts.foldl (bhStep d c0) s, 0 ≤ v := by
  induction ts with
  | nil => intro s hs; exact hs
  | cons t ts ih =>
    intro s hs
    rw [List.foldl_cons]
    exact ih _ (bhStep_values_nonneg d c0 hc s t hs)

theorem returnAccF_eq_fin (d : MarketData) (t k : ℕ)
    (hP : ∀ t a p, d.price t a = some p → 0 < p) (l : List ℕ) :
    returnAccF d t k l = FV.fin (returnAcc d t k l) := by
  rw [returnAccF, returnAcc]
  suffices h : ∀ q : ℚ,
      l.foldl (fun r a =>
        match d.price t a, d.price (t + 1) a with
        | some p0, some p1 => fadd r (fdivN (fdivQ (p1 - p0) p0) k)
        | _, _ => r) (.fin q)
        = .fin (l.foldl (fun r a => r + stockAddend d t k a) q) from h 0
  induction l with
  | nil => intro q; rfl
  | cons a l ih =>
    intro q
    rw [List.foldl_cons, List.foldl_cons]
    cases h0 : d.price t a with
    | none =>
      have hsa : stockAddend d t k a = 0 := by
        unfold stockAddend
        rw [h0]
      simp only [h0, hsa, add_zero]
      exact ih q
    | some p0 =>
      cases h1 : d.price (t + 1) a with
      | none =>
        have hsa : stockAddend d t k a = 0 := by
          unfold stockAddend
          rw [h0, h1]
        simp only [h0, h1, hsa, add_zero]
        exact ih q
      | some p1 =>
        have hsa : stockAddend d t k a = ((p1 - p0) / p0) / (k : ℚ) := by
          unfold stockAddend
          rw [h0, h1]
        have hp0 : p0 ≠ 0 := ne_of_gt (hP t a p0 h0)
        have hdiv : fdivQ (p1 - p0) p0 = .fin ((p1 - p0) / p0) := by
          rw [fdivQ, if_pos hp0]
        simp only [h0, h1, hsa, hdiv, fdivN, fadd]
        exact ih (q + (p1 - p0) / p0 / (k : ℚ))

theorem stratStepF_values (d : MarketData) (k : ℕ)
    (hP : ∀ t a p, d.price t a = some p → 0 < p)
    (sF : SimStateF) (s : SimState) (t : ℕ)
    (hvs : sF.values = s.values.map FV.fin) :
    (stratStepF d k sF t).values = (stratStep d k s t).values.map FV.fin := by
  unfold stratStepF stratStep
  by_cases h : validStocks d k t = []
  · simp only [if_pos h]
    exact hvs
  · simp only [if_neg h]
    have hhead : sF.values.headI = FV.fin s.values.headI := by
      rw [hvs]
      cases s.values with
      | nil => rfl
      | cons x xs => rfl
    have hr : portfolioReturnF d t (validStocks d k t)
        = .fin (portfolioReturn d t (validStocks d k t)) := by
      rw [portfolioReturnF, portfolioReturn]
      exact returnAccF_eq_fin d t _ hP _
    rw [List.map_cons, hhead, hr, hvs]
    rfl

theorem stratFoldF_values (d : MarketData) (k : ℕ)
    (hP : ∀ t a p, d.price t a = some p → 0 < p) (ts : List ℕ) :
    ∀ (sF : SimStateF) (s : SimState), sF.values = s.values.map FV.fin →
      (ts.foldl (stratStepF d k) sF).values
        = (ts.foldl (stratStep d k) s).values.map FV.fin := by
  induction ts with
  | nil => intro sF s h; exact h
  | cons t ts ih =>
    intro sF s h
    rw [List.foldl_cons, List.foldl_cons]
    exact ih _ _ (stratStepF_values d k hP sF s t h)

/-- Claim C9 (amended): for a price table whose present prices are all
positive and a positive initial capital, every portfolio value emitted by
the ranked rebalancing simulator — in float semantics — and by the static
hold simulator is non-negative. (With positive present prices no division
by zero occurs, so the float run coincides with the exact-rational run.) -/
theorem portfolio_values_nonneg_amended (d : MarketData) (c0 : ℚ) (k : ℕ)
    (hP : ∀ t a p, d.price t a = some p → 0 < p) (hc : 0 < c0) :
    (∀ v ∈ (sentiment_trading_strategyF d c0 k).values, v.nonneg) ∧
      (∀ v ∈ buy_and_hold_values d c0, 0 ≤ v) := by
  have hP0 : ∀ t a p, d.price t a = some p → 0 ≤ p :=
    fun t a p h => le_of_lt (hP t a p h)
  constructor
  · intro v hv
    have h1 : (sentiment_trading_strategyF d c0 k).values
        = ((List.range (d.numDates - 1)).foldl (stratStepF d k)
            ⟨[.fin c0], [], []⟩).values.reverse := rfl
    have h2 : (sentiment_trading_strategy d c0 k).values
        = ((List.range (d.numDates - 1)).foldl (stratStep d k)
            ⟨[c0], [], []⟩).values.reverse := rfl
    have hcorr : (sentiment_trading_strategyF d c0 k).values
        = (sentiment_trading_strategy d c0 k).values.map FV.fin := by
      rw [h1, h2,
        stratFoldF_values d k hP _ ⟨[.fin c0], [], []⟩ ⟨[c0], [], []⟩ rfl,
        List.map_reverse]
    rw [hcorr] at hv
    obtain ⟨q, hq, rfl⟩ := List.mem_map.mp hv
    rw [h2, List.mem_reverse] at hq
    have hnn : 0 ≤ q := by
      refine stratFold_values_nonneg d k _ hP0 ⟨[c0], [], []⟩ ?_ q hq
      intro w hw
      have hwc : w = c0 := by simpa using hw
      rw [hwc]
      exact le_of_lt hc
    exact hnn
  · intro v hv
    rw [buy_and_hold_values, List.mem_reverse] at hv
    exact bhFold_values_nonneg d c0 (le_of_lt hc) _ [] (by simp) v hv

/-- Witness for C9's amended statement on `dEx9`: constant positive price,
positive capital. -/
theorem portfolio_values_nonneg_amended_witness :
    (0 : ℚ) < 100000 ∧
      ((∀ v ∈ (sentiment_trading_strategyF dEx9 100000 2).values, v.nonneg) ∧
        (∀ v ∈ buy_and_hold_values dEx9 100000, 0 ≤ v)) :=
  ⟨by norm_num, portfolio_values_nonneg_amended dEx9 100000 2
    (by intro t a p h; simp [dEx9] at h; linarith [h]) (by norm_num)⟩

/-- Counterexample to C9 as stated: on `dEx9z` the one asset's price is 0 —
not negative and not missing, so the claim's hypotheses hold — and it is
selected (a present 0.0 fails no isna check). The step computes
`(0 - 0) / 0 = NaN`, which propagates through
`portfolio_value[-1] * (1 + portfolio_return)`, so the emitted value series
is `[100000, NaN]`: the NaN entry is not a non-negative value. -/
theorem portfolio_values_nonneg_cx :
    (∀ t a p, dEx9z.price t a = some p → 0 ≤ p) ∧ (0 : ℚ) < 100000 ∧
      (sentiment_trading_strategyF dEx9z 100000 2).values
        = [FV.fin 100000, FV.nan] ∧
      ¬ (∀ v ∈ (sentiment_trading_strategyF dEx9z 100000 2).values,
          v.nonneg) := by
  have hvs : validStocks dEx9z 2 0 = [0] := by decide
  have hr : portfolioReturnF dEx9z 0 [0] = FV.nan := by
    have h00 : dEx9z.price 0 0 = some 0 := rfl
    have h10 : dEx9z.price (0 + 1) 0 = some 0 := rfl
    simp only [portfolioReturnF, returnAccF, List.foldl_cons, List.foldl_nil,
      h00, h10]
    norm_num [fdivQ, fdivN, fadd]
  have hstep : stratStepF dEx9z 2 ⟨[.fin 100000], [], []⟩ 0
      = ⟨[.nan, .fin 100000], [.nan], [[0]]⟩ := by
    unfold stratStepF
    rw [hvs]
    rw [if_neg (by simp)]
    rw [hr]
    rfl
  have hval : (sentiment_trading_strategyF dEx9z 100000 2).values
      = [FV.fin 100000, FV.nan] := by
    have hrange : List.range (dEx9z.numDates - 1) = [0] := rfl
    have hfold : (sentiment_trading_strategyF dEx9z 100000 2).values
        = ((List.range (dEx9z.numDates - 1)).foldl (stratStepF dEx9z 2)
            ⟨[.fin 100000], [], []⟩).values.reverse := rfl
    rw [hfold, hrange, List.foldl_cons, List.foldl_nil, hstep]
    rfl
  refine ⟨?_, by norm_num, hval, ?_⟩
  · intro t a p h
    have h2 : (if t ≤ 1 ∧ a = 0 then (some 0 : Option ℚ) else none)
        = some p := h
    by_cases hta : t ≤ 1 ∧ a = 0
    · rw [if_pos hta] at h2
      injection h2 with h3
      exact h3.le
    · rw [if_neg hta] at h2
      cases h2
  · intro hall
    have hmem : FV.nan ∈ (sentiment_trading_strategyF dEx9z 100000 2).values := by
      rw [hval]
      exact List.mem_cons_of_mem _ (List.mem_cons_self _ _)
    exact hall FV.nan hmem

/-! Claims C5 and C6: properties of the daily ranking. The stable descending
sort is analysed through the permutation, sortedness and stability of
`sortDesc`. -/

theorem insertDesc_perm (key : ℕ → ℚ) (a : ℕ) (l : List ℕ) :
    (insertDesc key a l).Perm (a :: l) := by
  induction l with
  | nil => exact List.Perm.refl _
  | cons b bs ih =>
    simp only [insertDesc]
    by_cases h : key b ≤ key a
    · rw [if_pos h]
    · rw [if_neg h]
      exact (ih.cons b).trans (List.Perm.swap a b bs)

theorem sortDesc_perm (key : ℕ → ℚ) (l : List ℕ) : (sortDesc key l).Perm l := by
  induction l with
  | nil => exact List.Perm.refl _
  | cons a l ih =>
    exact (insertDesc_perm key a (sortDesc key l)).trans (ih.cons a)

theorem insertDesc_pairwise (key : ℕ → ℚ) (a : ℕ) (l : List ℕ)
    (h : l.Pairwise (fun x y => key y ≤ key x)) :
    (insertDesc key a l).Pairwise (fun x y => key y ≤ key x) := by
  induction l with
  | nil => simp [insertDesc]
  | cons b bs ih =>
    obtain ⟨hb, hbs⟩ := List.pairwise_cons.mp h
    simp only [insertDesc]
    by_cases hba : key b ≤ key a
    · rw [if_pos hba]
      refine List.pairwise_cons.mpr ⟨?_, h⟩
      intro y hy
      rcases List.mem_cons.mp hy with rfl | hy'
      · exact hba
      · exact le_trans (hb y hy') hba
    · rw [if_neg hba]
      refine List.pairwise_cons.mpr ⟨?_, ih hbs⟩
      intro y hy
      have hy2 : y ∈ a :: bs := (insertDesc_perm key a bs).mem_iff.mp hy
      rcases List.mem_cons.mp hy2 with rfl | hy'
      · exact le_of_lt (lt_of_not_le hba)
      · exact hb y hy'

theorem sortDesc_pairwise (key : ℕ → ℚ) (l : List ℕ) :
    (sortDesc key l).Pairwise (fun x y => key y ≤ key x) := by
  induction l with
  | nil => simp [sortDesc]
  | cons a l ih => exact insertDesc_pairwise key a (sortDesc key l) ih

theorem sublist_insertDesc (key : ℕ → ℚ) (a : ℕ) (l : List ℕ) :
    List.Sublist l (insertDesc key a l) := by
  induction l with
  | nil => exact List.nil_sublist _
  | cons b bs ih =>
    simp only [insertDesc]
    by_cases h : key b ≤ key a
    · rw [if_pos h]
      exact (List.Sublist.refl (b :: bs)).cons a
    · rw [if_neg h]
      exact ih.cons₂ b

theorem pair_sublist_insertDesc (key : ℕ → ℚ) (a b : ℕ) (l : List ℕ)
    (hb : b ∈ l) (hba : key b ≤ key a) :
    List.Sublist [a, b] (insertDesc key a l) := by
  induction l with
  | nil => cases hb
  | cons c cs ih =>
    simp only [insertDesc]
    by_cases h : key c ≤ key a
    · rw [if_pos h]
      exact (List.singleton_sublist.mpr hb).cons₂ a
    · rw [if_neg h]
      have hbc : b ≠ c := by
        intro he
        rw [he] at hba
        exact h hba
      have hb' : b ∈ cs := (List.mem_cons.mp hb).resolve_left hbc
      exact (ih hb').cons c

theorem pair_sublist_sortDesc_stable (key : ℕ → ℚ) (a b : ℕ) (l : List ℕ)
    (h : List.Sublist [a, b] l) (hba : key b ≤ key a) :
    List.Sublist [a, b] (sortDesc key l) := by
  induction l with
  | nil =>
    rw [List.sublist_nil] at h
    simp at h
  | cons c cs ih =>
    cases h with
    | cons _ h' =>
      exact (ih h').trans (sublist_insertDesc key c (sortDesc key cs))
    | cons₂ _ h' =>
      have hbmem : b ∈ sortDesc key cs :=
        ((sortDesc_perm key cs).mem_iff).mpr (List.singleton_sublist.mp h')
      exact pair_sublist_insertDesc key a b (sortDesc key cs) hbmem hba

theorem pair_sublist_of_mem (l : List ℕ) (a b : ℕ) (ha : a ∈ l) (hb : b ∈ l)
    (hne : a ≠ b) :
    List.Sublist [a, b] l ∨ List.Sublist [b, a] l := by
  induction l with
  | nil => cases ha
  | cons c cs ih =>
    rcases List.mem_cons.mp ha with rfl | ha'
    · have hb' : b ∈ cs := (List.mem_cons.mp hb).resolve_left fun h => hne h.symm
      exact Or.inl ((List.singleton_sublist.mpr hb').cons₂ a)
    · rcases List.mem_cons.mp hb with rfl | hb'
      · exact Or.inr ((List.singleton_sublist.mpr ha').cons₂ b)
      · rcases ih ha' hb' with h | h
        · exact Or.inl (h.cons c)
        · exact Or.inr (h.cons c)

theorem sortDesc_pair_of_lt (key : ℕ → ℚ) (l : List ℕ) (a b : ℕ)
    (ha : a ∈ l) (hb : b ∈ l) (hlt : key b < key a) :
    List.Sublist [a, b] (sortDesc key l) := by
  have hne : a ≠ b := by
    intro he
    rw [he] at hlt
    exact lt_irrefl _ hlt
  have ha' : a ∈ sortDesc key l := (sortDesc_perm key l).mem_iff.mpr ha
  have hb' : b ∈ sortDesc key l := (sortDesc_perm key l).mem_iff.mpr hb
  rcases pair_sublist_of_mem _ a b ha' hb' hne with h | h
  · exact h
  · exfalso
    have hp := List.Pairwise.sublist h (sortDesc_pairwise key l)
    have hle := (List.pairwise_cons.mp hp).1 a (by simp)
    exact absurd hle (not_le.mpr hlt)

theorem pair_sublist_of_pairwise_lt (l : List ℕ) (a b : ℕ)
    (hp : l.Pairwise (· < ·)) (ha : a ∈ l) (hb : b ∈ l) (hab : a < b) :
    List.Sublist [a, b] l := by
  rcases pair_sublist_of_mem l a b ha hb (Nat.ne_of_lt hab) with h | h
  · exact h
  · exfalso
    have hp2 := List.Pairwise.sublist h hp
    have := (List.pairwise_cons.mp hp2).1 a (by simp)
    omega

theorem rankedAssets_nodup (d : MarketData) (t : ℕ) :
    (rankedAssets d t).Nodup := by
  have h1 : (validScored d t).Nodup := (List.nodup_range _).filter _
  have h2 : (missingScored d t).Nodup := (List.nodup_range _).filter _
  have h1s : (sortDesc (scoreAt d t) (validScored d t)).Nodup :=
    ((sortDesc_perm _ _).nodup_iff).mpr h1
  rw [rankedAssets]
  refine h1s.append h2 ?_
  intro x hx hx2
  have hxv : x ∈ validScored d t := (sortDesc_perm _ _).mem_iff.mp hx
  rw [validScored, List.mem_filter] at hxv
  rw [missingScored, List.mem_filter] at hx2
  have h3 := hxv.2
  have h4 := hx2.2
  rw [Option.isNone_iff_eq_none] at h4
  rw [h4] at h3
  simp at h3

theorem mem_take_of_pair_sublist (l : List ℕ) (a b : ℕ) :
    ∀ k : ℕ, l.Nodup → List.Sublist [a, b] l → b ∈ l.take k → a ∈ l.take k := by
  induction l with
  | nil =>
    intro k _ h _
    rw [List.sublist_nil] at h
    simp at h
  | cons c cs ih =>
    intro k hnd h hb
    cases k with
    | zero => simp at hb
    | succ k =>
      rw [List.take_succ_cons] at hb ⊢
      cases h with
      | cons₂ _ h' => exact List.mem_cons_self _ _
      | cons _ h' =>
        rcases List.mem_cons.mp hb with rfl | hb'
        · exfalso
          have hbcs : b ∈ cs := h'.mem (by simp)
          exact (List.nodup_cons.mp hnd).1 hbcs
        · exact List.mem_cons_of_mem c (ih k (List.nodup_cons.mp hnd).2 h' hb')

/-- Claim C5: the daily ranking orders assets by signal score descending;
two assets with equal scores keep their original column order (stable sort),
and hence when the later-indexed one enters the top-K selection so does the
earlier-indexed one. The ranking is a pure function of the inputs, hence
deterministic and reproducible. -/
theorem ranking_desc_stable (d : MarketData) (t a b : ℕ) (sa sb : ℚ)
    (haN : a < d.numAssets) (hbN : b < d.numAssets)
    (ha : d.signal t a = some sa) (hb : d.signal t b = some sb) :
    (sb < sa → List.Sublist [a, b] (rankedAssets d t)) ∧
      (sa = sb → a < b →
        List.Sublist [a, b] (rankedAssets d t) ∧
          ∀ k, b ∈ topStocks d k t → a ∈ topStocks d k t) := by
  have haV : a ∈ validScored d t := by
    rw [validScored, List.mem_filter]
    exact ⟨List.mem_range.mpr haN, by rw [ha]; rfl⟩
  have hbV : b ∈ validScored d t := by
    rw [validScored, List.mem_filter]
    exact ⟨List.mem_range.mpr hbN, by rw [hb]; rfl⟩
  have hka : scoreAt d t a = sa := by rw [scoreAt, ha]; rfl
  have hkb : scoreAt d t b = sb := by rw [scoreAt, hb]; rfl
  constructor
  · intro hlt
    have hs := sortDesc_pair_of_lt (scoreAt d t) (validScored d t) a b haV hbV
      (by rw [hka, hkb]; exact hlt)
    exact hs.trans (List.sublist_append_left _ _)
  · intro heq hab
    have hpairV : List.Sublist [a, b] (validScored d t) := by
      refine pair_sublist_of_pairwise_lt _ a b ?_ haV hbV hab
      exact List.Pairwise.sublist (List.filter_sublist _) (List.pairwise_lt_range _)
    have hsorted := pair_sublist_sortDesc_stable (scoreAt d t) a b _ hpairV
      (by rw [hka, hkb, heq])
    have hranked : List.Sublist [a, b] (rankedAssets d t) :=
      hsorted.trans (List.sublist_append_left _ _)
    refine ⟨hranked, fun k hbk => ?_⟩
    exact mem_take_of_pair_sublist (rankedAssets d t) a b k
      (rankedAssets_nodup d t) hranked hbk

/-- Witness for C5 on `dEx5`: assets 0 and 1 have the equal score 5; asset 0
precedes asset 1 in the ranking, and whenever asset 1 is in the top 3 so is
asset 0. -/
theorem ranking_desc_stable_witness :
    dEx5.signal 0 0 = some 5 ∧ dEx5.signal 0 1 = some 5 ∧
      List.Sublist [0, 1] (rankedAssets dEx5 0) ∧
      (1 ∈ topStocks dEx5 3 0 → 0 ∈ topStocks dEx5 3 0) :=
  ⟨by decide, by decide,
    ((ranking_desc_stable dEx5 0 0 1 5 5 (by decide) (by decide) (by decide)
      (by decide)).2 rfl (by decide)).1,
    fun hb => ((ranking_desc_stable dEx5 0 0 1 5 5 (by decide) (by decide)
      (by decide) (by decide)).2 rfl (by decide)).2 3 hb⟩

/-! Claim C6: missing scores and the top-K selection. -/

/-- Claim C6 (amended): an asset with a missing score is ranked after every
asset with a present score (pandas places NaN keys last), so whenever at
least `k` assets have present scores, every member of the top-`k` selection
has a present score and no missing-score asset is selected or allocated. -/
theorem topStocks_all_scored (d : MarketData) (t k : ℕ)
    (h : k ≤ (validScored d t).length) :
    ∀ a ∈ topStocks d k t, (d.signal t a).isSome := by
  intro a ha
  rw [topStocks, rankedAssets] at ha
  have hlen : k ≤ (sortDesc (scoreAt d t) (validScored d t)).length := by
    rw [(sortDesc_perm _ _).length_eq]
    exact h
  rw [List.take_append_of_le_length hlen] at ha
  have h1 : a ∈ sortDesc (scoreAt d t) (validScored d t) :=
    (List.take_sublist _ _).mem ha
  have h2 : a ∈ validScored d t := (sortDesc_perm _ _).mem_iff.mp h1
  exact (List.mem_filter.mp h2).2

/-- Witness for C6's amended statement on `dEx6w`: three scored assets,
`k = 2`. -/
theorem topStocks_all_scored_witness :
    2 ≤ (validScored dEx6w 0).length ∧
      ∀ a ∈ topStocks dEx6w 2 0, (dEx6w.signal 0 a).isSome :=
  ⟨by decide, topStocks_all_scored dEx6w 0 2 (by decide)⟩

/-- Counterexample to C6 as stated: on `dEx6` asset 1 has a missing score at
day 0, yet with `TOP_N = 2` and only one scored asset it is selected into
the top-K and into the valid (allocated) subset. -/
theorem missing_score_selected_cx :
    dEx6.signal 0 1 = none ∧ 1 ∈ topStocks dEx6 2 0 ∧
      1 ∈ validStocks dEx6 2 0 := by decide

/-! Claim C10: the static hold simulator with a missing initial price. -/

theorem bhFold_freezes (d : MarketData) (c0 : ℚ)
    (hnan : ∀ t, 0 < t → t < d.numDates → totalValue d c0 t = none) :
    ∀ m, 1 ≤ m → m ≤ d.numDates →
      (List.range m).foldl (bhStep d c0) []
        = List.replicate m ((bhStep d c0 [] 0).headI) := by
  intro m
  induction m with
  | zero => intro h; omega
  | succ m ih =>
    intro _ hm1
    by_cases hm : m = 0
    · subst hm
      have hr : List.range 1 = [0] := rfl
      rw [hr, List.foldl_cons, List.foldl_nil]
      have : bhStep d c0 [] 0 = (bhStep d c0 [] 0).headI :: [] := rfl
      rw [List.replicate_succ, List.replicate_zero]
      exact this
    · have h1 : 1 ≤ m := by omega
      have h2 : m ≤ d.numDates := by omega
      have hr : List.range (m + 1) = List.range m ++ [m] := List.range_succ _
      rw [hr, List.foldl_append, ih h1 h2, List.foldl_cons, List.foldl_nil]
      have htv : totalValue d c0 m = none := hnan m (by omega) (by omega)
      rw [bhStep, htv]
      obtain ⟨j, rfl⟩ : ∃ j, m = j + 1 := ⟨m - 1, by omega⟩
      rw [if_pos (by omega : 0 < j + 1)]
      rw [List.replicate_succ]
      rfl

theorem zipWith_ret_replicate (v0 : ℚ) :
    ∀ k, List.zipWith (fun prev curr => (curr - prev) / prev)
        (List.replicate (k + 1) v0) (List.replicate k v0)
      = List.replicate k 0 := by
  intro k
  induction k with
  | zero => rfl
  | succ j ih =>
    show List.zipWith (fun prev curr => (curr - prev) / prev)
        (v0 :: List.replicate (j + 1) v0) (v0 :: List.replicate j v0)
      = 0 :: List.replicate j 0
    rw [List.zipWith_cons_cons, sub_self, zero_div, ih]

theorem bh_rets_eq (d : MarketData) (c0 v : ℚ) (vs : List ℚ)
    (h : buy_and_hold_values d c0 = v :: vs) :
    buy_and_hold_rets d c0
      = 0 :: List.zipWith (fun prev curr => (curr - prev) / prev) (v :: vs) vs := by
  rw [buy_and_hold_rets, h]

/-- Claim C10 (amended): when some asset's day-0 price is missing its share
count is NaN, and the day-`t` total is NaN — so the fallback fires — on
every later date at which such an asset's price is present. When every
missing-at-day-0 asset has present prices on all later dates, the whole
emitted value series stays frozen at the day-0 value (the valid assets' own
day-0 allocations, not the full initial capital when other assets priced at
day 0 exist) and every daily return is 0, with no error raised. -/
theorem bh_missing_initial_freezes (d : MarketData) (c0 : ℚ)
    (hmiss : ∃ a, a < d.numAssets ∧ d.price 0 a = none)
    (hlater : ∀ t, 0 < t → t < d.numDates →
      ∀ a, a < d.numAssets → d.price 0 a = none → (d.price t a).isSome) :
    (∀ v ∈ buy_and_hold_values d c0, v = (buy_and_hold_values d c0).headI) ∧
      (∀ r ∈ buy_and_hold_rets d c0, r = 0) := by
  obtain ⟨a0, ha0N, ha0⟩ := hmiss
  have hnan : ∀ t, 0 < t → t < d.numDates → totalValue d c0 t = none := by
    intro t ht htd
    have hmem : a0 ∈ presentAssets d t := by
      rw [presentAssets, List.mem_filter]
      exact ⟨List.mem_range.mpr ha0N, hlater t ht htd a0 ha0N ha0⟩
    have hany : (presentAssets d t).any (fun a => (bhShares d c0 a).isNone)
        = true := by
      rw [List.any_eq_true]
      refine ⟨a0, hmem, ?_⟩
      rw [bhShares, ha0]
      rfl
    rw [totalValue, if_pos hany]
  rcases Nat.eq_zero_or_pos d.numDates with h0 | h0
  · have hv : buy_and_hold_values d c0 = [] := by
      rw [buy_and_hold_values, h0]
      rfl
    constructor
    · intro v hv2
      rw [hv] at hv2
      cases hv2
    · intro r hr
      rw [buy_and_hold_rets, hv] at hr
      cases hr
  · have hfold := bhFold_freezes d c0 hnan d.numDates h0 (le_refl _)
    have hv : buy_and_hold_values d c0
        = List.replicate d.numDates ((bhStep d c0 [] 0).headI) := by
      rw [buy_and_hold_values, hfold, List.reverse_replicate]
    obtain ⟨k, hk⟩ : ∃ k, d.numDates = k + 1 := ⟨d.numDates - 1, by omega⟩
    rw [hk] at hv
    constructor
    · intro v hvm
      rw [hv, List.replicate_succ] at hvm ⊢
      rcases List.mem_cons.mp hvm with rfl | hvm'
      · rfl
      · exact List.eq_of_mem_replicate hvm'
    · intro r hr
      rw [bh_rets_eq d c0 ((bhStep d c0 [] 0).headI)
          (List.replicate k ((bhStep d c0 [] 0).headI))
          (by rw [hv, List.replicate_succ])] at hr
      have hz := zipWith_ret_replicate ((bhStep d c0 [] 0).headI) k
      rw [List.replicate_succ] at hz
      rw [hz] at hr
      rcases List.mem_cons.mp hr with rfl | hr'
      · rfl
      · exact List.eq_of_mem_replicate hr'

/-- Witness for C10's amended statement on `dEx10`. -/
theorem bh_missing_initial_freezes_witness :
    dEx10.price 0 0 = none ∧
      ((∀ v ∈ buy_and_hold_values dEx10 100000,
          v = (buy_and_hold_values dEx10 100000).headI) ∧
        (∀ r ∈ buy_and_hold_rets dEx10 100000, r = 0)) :=
  ⟨by decide, bh_missing_initial_freezes dEx10 100000 ⟨0, by decide, by decide⟩
    (by
      intro t ht htd a haN hm
      have ht1 : t = 1 := by
        have : dEx10.numDates = 2 := rfl
        omega
      subst ht1
      have hn : dEx10.numAssets = 2 := rfl
      have ha01 : a = 0 ∨ a = 1 := by omega
      rcases ha01 with rfl | rfl <;> decide)⟩

/-- Counterexample to C10 as stated: on `dEx10` (asset 0 unpriced at day 0,
asset 1 at price 100 throughout, initial capital 100000) the emitted series
is [50000, 50000] — constant, but at the valid asset's allocation, not at
the initial capital 100000. -/
theorem bh_missing_initial_cx :
    dEx10.price 0 0 = none ∧
      buy_and_hold_values dEx10 100000 = [50000, 50000] ∧
      (buy_and_hold_values dEx10 100000).headI ≠ 100000 := by
  have hp0 : presentAssets dEx10 0 = [1] := by decide
  have hp1 : presentAssets dEx10 1 = [0, 1] := by decide
  have hs1 : bhShares dEx10 100000 1 = some 500 := by
    have h : dEx10.price 0 1 = some 100 := rfl
    rw [bhShares, h]
    have hn : dEx10.numAssets = 2 := rfl
    rw [hn]
    norm_num
  have hs0 : bhShares dEx10 100000 0 = none := by
    have h : dEx10.price 0 0 = none := rfl
    rw [bhShares, h]
  have ht0 : totalValue dEx10 100000 0 = some 50000 := by
    rw [totalValue, hp0]
    have h : dEx10.price 0 1 = some 100 := rfl
    simp [hs1, h]
    norm_num
  have ht1 : totalValue dEx10 100000 1 = none := by
    rw [totalValue, hp1]
    simp [hs0]
  have h1 : buy_and_hold_values dEx10 100000 = [50000, 50000] := by
    have hr2 : List.range dEx10.numDates = [0, 1] := rfl
    rw [buy_and_hold_values, hr2, List.foldl_cons, List.foldl_cons,
      List.foldl_nil]
    simp only [bhStep]
    rw [ht0, ht1]
    norm_num
  refine ⟨rfl, h1, ?_⟩
  rw [h1]
  norm_num

end Portfolio
